import Mathlib

/-!
Verification development for the flexi_logger runtime engine, following the
repository's design document (spec.md).  The repository ships only the
documentation file `src/code_examples.rs`; the engine itself (Spec Model,
Spec Stack, Spec-File Watcher, Rotating File Writer, Cleanup Engine,
Buffering/Flush Controller) is therefore modelled here from the design
document, and all theorems are proved against these models.
-/

namespace FlexiLogger

/-- Modelled from the spec: severity levels of a LogRecord, an ordered enum.
Numerically, lower = more severe (Error numeric 1 ... Trace numeric 5). -/
inductive Level where
  | Error
  | Warn
  | Info
  | Debug
  | Trace
deriving DecidableEq, Repr

/-- Modelled from the spec: numeric value of a level in the total order
Error < Warn < Info < Debug < Trace (lower numeric = more severe). -/
def Level.num : Level → Nat
  | .Error => 1
  | .Warn => 2
  | .Info => 3
  | .Debug => 4
  | .Trace => 5

/-- Modelled from the spec: a directive minimum-severity threshold.  The
grammar only produces the five named levels, but the documented behavior of
`Logger::with_env` ("if RUST_LOG is not set, or if its value cannot be
interpreted, nothing is logged") additionally needs an Off threshold strictly
below Error that enables nothing. -/
inductive LevelFilter where
  | Off
  | Error
  | Warn
  | Info
  | Debug
  | Trace
deriving DecidableEq, Repr

/-- Modelled from the spec: numeric value of a threshold; Off = 0, below every
record level, so that the comparison level <= threshold keeps everything at
least as severe as the threshold and Off keeps nothing. -/
def LevelFilter.num : LevelFilter → Nat
  | .Off => 0
  | .Error => 1
  | .Warn => 2
  | .Info => 3
  | .Debug => 4
  | .Trace => 5

/-- Modelled from the spec: the threshold corresponding to a named level of
the grammar. -/
def Level.toFilter : Level → LevelFilter
  | .Error => .Error
  | .Warn => .Warn
  | .Info => .Info
  | .Debug => .Debug
  | .Trace => .Trace

/-- Modelled from the spec: a SpecDirective maps a module-path prefix (a list
of dot segments; the empty list is the root / wildcard entry) to a minimum
severity. -/
structure SpecDirective where
  pathPfx : List String
  minLevel : LevelFilter
deriving DecidableEq, Repr

/-- Modelled from the spec: a LogSpecification is an ordered set of
SpecDirectives plus an optional textual parse-error record (diagnostics list
collected by the tolerant parser). -/
structure LogSpecification where
  directives : List SpecDirective
  diagnostics : List String
deriving DecidableEq, Repr

/-- Modelled from the spec: a directive matches a module path when its prefix
is a dot-segment prefix of the path. -/
def dirMatches (path : List String) (d : SpecDirective) : Bool :=
  d.pathPfx.isPrefixOf path

/-- Modelled from the spec: one scan step of directive selection; a later
directive replaces the current best when it matches and its matching prefix is
at least as long (ties broken by declaration order, last wins). -/
def selStep (path : List String) (acc : Option SpecDirective)
    (d : SpecDirective) : Option SpecDirective :=
  if dirMatches path d then
    match acc with
    | none => some d
    | some c =>
        if c.pathPfx.length ≤ d.pathPfx.length then some d else acc
  else acc

/-- Modelled from the spec: scan the directives in declaration order keeping
the most specific match. -/
def selectFrom (path : List String) (ds : List SpecDirective) :
    Option SpecDirective :=
  ds.foldl (selStep path) none

/-- Modelled from the spec: the directive selected for a module path. -/
def selectDirective (spec : LogSpecification) (path : List String) :
    Option SpecDirective :=
  selectFrom path spec.directives

/-- Modelled from the spec: no match falls back to a global default that
enables Error only. -/
def defaultFilter : LevelFilter := .Error

/-- Modelled from the spec: the threshold in force for a module path: the
selected directive's minimum, else the global default. -/
def effectiveFilter (spec : LogSpecification) (path : List String) :
    LevelFilter :=
  match selectDirective spec path with
  | some d => d.minLevel
  | none => defaultFilter

/-- Modelled from the spec: is_enabled compares level <= directive_minimum
using the total order on severities. -/
def is_enabled (spec : LogSpecification) (lv : Level) (path : List String) :
    Bool :=
  lv.num ≤ (effectiveFilter spec path).num

/-- Longest length of a matching prefix among a list of directives. -/
def maxPfxLen (ds : List SpecDirective) : Nat :=
  ds.foldl (fun a d => max a d.pathPfx.length) 0

/-- Among a list of directives, those whose prefix length is maximal, and of
these the last one. -/
def pickLongest (l : List SpecDirective) : Option SpecDirective :=
  (l.filter (fun d => d.pathPfx.length == maxPfxLen l)).getLast?

/-- Declarative restatement of the spec's words for directive selection: among
the directives whose prefix matches the path, take those whose prefix length
is maximal, and of these the last one in declaration order. -/
def declSelect (path : List String) (ds : List SpecDirective) :
    Option SpecDirective :=
  pickLongest (ds.filter (dirMatches path))

theorem foldl_max_init_le (ds : List SpecDirective) (a : Nat) :
    a ≤ ds.foldl (fun b d => max b d.pathPfx.length) a := by
  induction ds generalizing a with
  | nil => exact Nat.le_refl a
  | cons d ds ih =>
      exact Nat.le_trans (Nat.le_max_left a d.pathPfx.length)
        (ih (max a d.pathPfx.length))

theorem le_maxPfxLen_of_mem {d : SpecDirective} {ds : List SpecDirective}
    (h : d ∈ ds) : d.pathPfx.length ≤ maxPfxLen ds := by
  unfold maxPfxLen
  suffices H : ∀ (a : Nat),
      d.pathPfx.length ≤ ds.foldl (fun b e => max b e.pathPfx.length) a by
    exact H 0
  intro a
  induction ds generalizing a with
  | nil => cases h
  | cons e ds ih =>
      rcases List.mem_cons.mp h with he | hm
      · subst he
        exact Nat.le_trans (Nat.le_max_right a d.pathPfx.length)
          (foldl_max_init_le ds (max a d.pathPfx.length))
      · exact ih hm (max a e.pathPfx.length)

theorem maxPfxLen_concat (l : List SpecDirective) (d : SpecDirective) :
    maxPfxLen (l ++ [d]) = max (maxPfxLen l) d.pathPfx.length := by
  unfold maxPfxLen
  rw [List.foldl_append]
  rfl

theorem exists_maxPfxLen_attained :
    ∀ (l : List SpecDirective), l ≠ [] →
      ∃ d, d ∈ l ∧ d.pathPfx.length = maxPfxLen l := by
  intro l
  induction l using List.reverseRecOn with
  | nil => intro h; exact absurd rfl h
  | append_singleton l d ih =>
      intro _
      rw [maxPfxLen_concat]
      by_cases h : maxPfxLen l ≤ d.pathPfx.length
      · exact ⟨d, List.mem_append_right l (List.mem_singleton_self d),
          (Nat.max_eq_right h).symm⟩
      · have hl : l ≠ [] := by
          intro hnil
          apply h
          rw [hnil]
          exact Nat.zero_le _
        rcases ih hl with ⟨c, hc, hlen⟩
        refine ⟨c, List.mem_append_left _ hc, ?_⟩
        rw [Nat.max_eq_left (Nat.le_of_not_le h)]
        exact hlen

theorem pickLongest_spec {l : List SpecDirective} {c : SpecDirective}
    (h : pickLongest l = some c) :
    c ∈ l ∧ c.pathPfx.length = maxPfxLen l := by
  unfold pickLongest at h
  have hmem := List.mem_of_mem_getLast? h
  exact ⟨(List.mem_filter.mp hmem).1,
    beq_iff_eq.mp (List.mem_filter.mp hmem).2⟩

theorem pickLongest_eq_none_iff (l : List SpecDirective) :
    pickLongest l = none ↔ l = [] := by
  constructor
  · intro h
    by_contra hne
    rcases exists_maxPfxLen_attained l hne with ⟨c, hcmem, hclen⟩
    have hfil : c ∈ l.filter (fun d => d.pathPfx.length == maxPfxLen l) :=
      List.mem_filter.mpr ⟨hcmem, beq_iff_eq.mpr hclen⟩
    unfold pickLongest at h
    rw [List.getLast?_eq_none_iff.mp h] at hfil
    cases hfil
  · intro h
    rw [h]
    rfl

theorem pickLongest_concat (l : List SpecDirective) (d : SpecDirective) :
    pickLongest (l ++ [d]) =
      match pickLongest l with
      | none => some d
      | some c =>
          if c.pathPfx.length ≤ d.pathPfx.length then some d else some c := by
  by_cases hle : maxPfxLen l ≤ d.pathPfx.length
  · have hL : pickLongest (l ++ [d]) = some d := by
      unfold pickLongest
      rw [maxPfxLen_concat, Nat.max_eq_right hle, List.filter_append]
      have : List.filter
          (fun e => e.pathPfx.length == d.pathPfx.length) [d] = [d] := by
        simp
      rw [this, List.getLast?_concat]
    rw [hL]
    rcases hp : pickLongest l with _ | c
    · rfl
    · have hc := pickLongest_spec hp
      have : c.pathPfx.length ≤ d.pathPfx.length := hc.2 ▸ hle
      simp only [this, if_true]
  · have hlt : d.pathPfx.length < maxPfxLen l := Nat.lt_of_not_le hle
    have hne : l ≠ [] := by
      intro hnil
      rw [hnil] at hlt
      exact Nat.not_lt_zero _ hlt
    have hL : pickLongest (l ++ [d]) = pickLongest l := by
      unfold pickLongest
      rw [maxPfxLen_concat, Nat.max_eq_left (Nat.le_of_lt hlt),
        List.filter_append]
      have : List.filter
          (fun e => e.pathPfx.length == maxPfxLen l) [d] = [] := by
        simp only [List.filter_cons, List.filter_nil]
        have : (d.pathPfx.length == maxPfxLen l) = false := by
          rw [beq_eq_false_iff_ne]
          exact Nat.ne_of_lt hlt
        rw [this]
        rfl
      rw [this, List.append_nil]
    rw [hL]
    rcases hp : pickLongest l with _ | c
    · exact absurd ((pickLongest_eq_none_iff l).mp hp) hne
    · have hc := pickLongest_spec hp
      have hnle : ¬ (c.pathPfx.length ≤ d.pathPfx.length) := by
        rw [hc.2]
        exact Nat.not_le_of_lt hlt
      simp only [hnle, if_false]

theorem selectFrom_eq_declSelect (path : List String) :
    ∀ (ds : List SpecDirective), selectFrom path ds = declSelect path ds := by
  intro ds
  induction ds using List.reverseRecOn with
  | nil => rfl
  | append_singleton ds d ih =>
      unfold selectFrom at ih ⊢
      unfold declSelect at ih ⊢
      rw [List.foldl_append, List.foldl_cons, List.foldl_nil, ih,
        List.filter_append]
      by_cases hm : dirMatches path d
      · have hfil : List.filter (dirMatches path) [d] = [d] := by
          simp [hm]
        rw [hfil, pickLongest_concat]
        unfold selStep
        rw [if_pos hm]
        rcases hp : pickLongest (ds.filter (dirMatches path)) with _ | c
        · rfl
        · by_cases hc : c.pathPfx.length ≤ d.pathPfx.length
          · simp only [hc, if_true]
          · simp only [hc, if_false]
      · have hfil : List.filter (dirMatches path) [d] = [] := by
          simp [hm]
        rw [hfil, List.append_nil]
        unfold selStep
        rw [if_neg (by simp [hm])]

/-- Split a character list at every separator character, dropping the
separators; the result always has at least one (possibly empty) chunk. -/
def splitAtPred (p : Char → Bool) : List Char → List (List Char)
  | [] => [[]]
  | c :: cs =>
      match splitAtPred p cs with
      | [] => [[]]
      | t :: ts => if p c then [] :: t :: ts else (c :: t) :: ts

/-- Drop leading and trailing blanks of a token. -/
def trimSpaces (cs : List Char) : List Char :=
  ((cs.dropWhile (fun c => c == ' ')).reverse.dropWhile
    (fun c => c == ' ')).reverse

/-- Modelled from the spec: case-insensitive level names
{error, warn, info, debug, trace}. -/
def levelOfText (cs : List Char) : Option Level :=
  let l := cs.map Char.toLower
  if l = "error".toList then some .Error
  else if l = "warn".toList then some .Warn
  else if l = "info".toList then some .Info
  else if l = "debug".toList then some .Debug
  else if l = "trace".toList then some .Trace
  else none

/-- Modelled from the spec: a module path is a dot / double-colon separated
string; split it into its segments. -/
def pathSegments (cs : List Char) : List String :=
  ((splitAtPred (fun c => c == ':' || c == '.') cs).filter
    (fun t => !t.isEmpty)).map (fun t => String.mk t)

/-- Modelled from the spec: one comma-separated token of the grammar —
either `module::path = level`, with `*` as module path meaning root, or a
bare `level` setting the root; anything else is a malformed token. -/
def parseToken (cs : List Char) : Except String SpecDirective :=
  match splitAtPred (fun c => c == '=') cs with
  | [single] =>
      match levelOfText (trimSpaces single) with
      | some lv => .ok ⟨[], lv.toFilter⟩
      | none => .error (String.mk cs)
  | [lhs, rhs] =>
      match levelOfText (trimSpaces rhs) with
      | some lv =>
          let l := trimSpaces lhs
          if l = [] then .error (String.mk cs)
          else if l = ['*'] then .ok ⟨[], lv.toFilter⟩
          else .ok ⟨pathSegments l, lv.toFilter⟩
      | none => .error (String.mk cs)
  | _ => .error (String.mk cs)

/-- Modelled from the spec: parse(text) splits the directive text at commas;
malformed tokens do not abort the whole parse — they are collected into the
diagnostics list attached to the resulting specification.  Empty tokens are
skipped. -/
def parseSpec (txt : String) : LogSpecification :=
  (splitAtPred (fun c => c == ',') txt.data).foldl
    (fun sp tok =>
      let t := trimSpaces tok
      if t = [] then sp
      else
        match parseToken t with
        | .ok d => ⟨sp.directives ++ [d], sp.diagnostics⟩
        | .error e => ⟨sp.directives, sp.diagnostics ++ [e]⟩)
    ⟨[], []⟩

/-- Modelled from the spec: the parse contract
parse(text) -> Result(LogSpecification, ParseError): ok when no token was
malformed, else an error carrying the diagnostics so the caller can decide
policy. -/
def parseResult (txt : String) : Except (List String) LogSpecification :=
  let sp := parseSpec txt
  if sp.diagnostics = [] then .ok sp else .error sp.diagnostics

theorem selectFrom_eq_none_of_no_match (path : List String)
    (ds : List SpecDirective) (h : ∀ d ∈ ds, dirMatches path d = false) :
    selectFrom path ds = none := by
  unfold selectFrom
  induction ds with
  | nil => rfl
  | cons d ds ih =>
      rw [List.foldl_cons]
      have hstep : selStep path none d = none := by
        unfold selStep
        rw [h d (List.mem_cons_self d ds)]
        simp
      rw [hstep]
      exact ih (fun e he => h e (List.mem_cons_of_mem d he))

/-- C1: for every LogSpecification, is_enabled selects the directive with the
longest matching dot-segment prefix of the module path, ties broken by
declaration order with the last directive winning; on the spec parsed from
the directives root=Info and a::b=Trace, is_enabled(Debug, a::b::c) is true
and is_enabled(Debug, x) is false. -/
theorem c1_longest_match_selection :
    (∀ (spec : LogSpecification) (path : List String),
        selectDirective spec path = declSelect path spec.directives) ∧
    is_enabled (parseSpec "info, a::b=trace") .Debug ["a", "b", "c"] = true ∧
    is_enabled (parseSpec "info, a::b=trace") .Debug ["x"] = false :=
  ⟨fun spec path => selectFrom_eq_declSelect path spec.directives,
    by decide, by decide⟩

/-- C2: is_enabled returns true iff the record level is at most the selected
directive's minimum under the total order Error < Warn < Info < Debug < Trace
(so everything at least as severe as the threshold is kept), and when no
directive prefix matches the module path the global default enables Error
only. -/
theorem c2_threshold_comparison :
    ∀ (spec : LogSpecification) (lv : Level) (path : List String),
      (is_enabled spec lv path = true ↔
        lv.num ≤ (effectiveFilter spec path).num) ∧
      (∀ lv₂ : Level, lv₂.num ≤ lv.num → is_enabled spec lv path = true →
        is_enabled spec lv₂ path = true) ∧
      ((∀ d ∈ spec.directives, dirMatches path d = false) →
        (is_enabled spec lv path = true ↔ lv = .Error)) := by
  intro spec lv path
  refine ⟨?_, ?_, ?_⟩
  · unfold is_enabled
    exact decide_eq_true_iff
  · intro lv₂ hle hen
    unfold is_enabled at hen ⊢
    rw [decide_eq_true_iff] at hen
    rw [decide_eq_true_iff]
    exact Nat.le_trans hle hen
  · intro hnone
    unfold is_enabled effectiveFilter selectDirective
    rw [selectFrom_eq_none_of_no_match path spec.directives hnone]
    cases lv <;> simp [Level.num, defaultFilter, LevelFilter.num]

/-- Concrete instantiation of the no-match fallback of
c2_threshold_comparison: under the spec parsed from a=info, module x matches
no directive, so only Error records pass. -/
theorem c2_threshold_comparison_witness :
    (is_enabled (parseSpec "a=info") Level.Warn ["x"] = true ↔
      Level.Warn = Level.Error) ∧
    (is_enabled (parseSpec "a=info") Level.Error ["x"] = true ↔
      Level.Error = Level.Error) :=
  ⟨(c2_threshold_comparison (parseSpec "a=info") .Warn ["x"]).2.2 (by decide),
   (c2_threshold_comparison (parseSpec "a=info") .Error ["x"]).2.2 (by decide)⟩

/-- Modelled from the spec: SpecStack — one base LogSpecification plus an
ordered stack of temporary override LogSpecifications. -/
structure SpecStack where
  base : LogSpecification
  temps : List LogSpecification
deriving DecidableEq, Repr

/-- Modelled from the spec: push_temp pushes a temporary override spec;
multiple pushes are allowed (nesting). -/
def SpecStack.push_temp (st : SpecStack) (sp : LogSpecification) :
    SpecStack :=
  ⟨st.base, sp :: st.temps⟩

/-- Modelled from the spec: pop_temp removes the most recent temporary
override; pop of an empty stack is a no-op (explicit design choice, not an
error). -/
def SpecStack.pop_temp (st : SpecStack) : SpecStack :=
  match st.temps with
  | [] => st
  | _ :: rest => ⟨st.base, rest⟩

/-- Modelled from the spec: the effective specification is the top of the
temporary-override stack, falling back to base when the stack is empty. -/
def SpecStack.effective (st : SpecStack) : LogSpecification :=
  match st.temps with
  | [] => st.base
  | t :: _ => t

/-- A Handle operation on the stack. -/
inductive StackOp where
  | pushOp (sp : LogSpecification)
  | popOp
deriving DecidableEq, Repr

/-- Apply one stack operation. -/
def applyOp (st : SpecStack) : StackOp → SpecStack
  | .pushOp sp => st.push_temp sp
  | .popOp => st.pop_temp

/-- Apply a sequence of stack operations, left to right. -/
def applyOps (st : SpecStack) (ops : List StackOp) : SpecStack :=
  ops.foldl applyOp st

/-- Number of pushes in a sequence of stack operations. -/
def pushCount (ops : List StackOp) : Nat :=
  ops.countP (fun o => match o with | .pushOp _ => true | .popOp => false)

/-- Number of pops in a sequence of stack operations. -/
def popCount (ops : List StackOp) : Nat :=
  ops.countP (fun o => match o with | .pushOp _ => false | .popOp => true)

/-- A balanced (well-nested) sequence: pushes and pops in equal number, and
in no prefix do the pops outnumber the pushes. -/
def BalancedOps (ops : List StackOp) : Prop :=
  pushCount ops = popCount ops ∧
  ∀ k, k ≤ ops.length →
    popCount (ops.take k) ≤ pushCount (ops.take k)

theorem applyOp_base (st : SpecStack) (o : StackOp) :
    (applyOp st o).base = st.base := by
  rcases st with ⟨b, ts⟩
  cases o with
  | pushOp sp => rfl
  | popOp => cases ts <;> rfl

theorem applyOps_base (ops : List StackOp) :
    ∀ (st : SpecStack), (applyOps st ops).base = st.base := by
  induction ops with
  | nil => intro st; rfl
  | cons o ops ih =>
      intro st
      unfold applyOps at ih ⊢
      rw [List.foldl_cons, ih (applyOp st o), applyOp_base]

theorem pushCount_cons_push (sp : LogSpecification) (ops : List StackOp) :
    pushCount (.pushOp sp :: ops) = pushCount ops + 1 := by
  unfold pushCount
  rw [List.countP_cons]
  rfl

theorem pushCount_cons_pop (ops : List StackOp) :
    pushCount (.popOp :: ops) = pushCount ops := by
  unfold pushCount
  rw [List.countP_cons]
  rfl

theorem popCount_cons_push (sp : LogSpecification) (ops : List StackOp) :
    popCount (.pushOp sp :: ops) = popCount ops := by
  unfold popCount
  rw [List.countP_cons]
  rfl

theorem popCount_cons_pop (ops : List StackOp) :
    popCount (.popOp :: ops) = popCount ops + 1 := by
  unfold popCount
  rw [List.countP_cons]
  rfl

theorem applyOps_temps_shape :
    ∀ (ops : List StackOp) (n : Nat)
      (_ : ∀ k, k ≤ ops.length →
        popCount (ops.take k) ≤ pushCount (ops.take k) + n)
      (l₁ l₂ : List LogSpecification) (_ : l₁.length = n)
      (b : LogSpecification),
      (applyOps ⟨b, l₁ ++ l₂⟩ ops).temps =
        (applyOps ⟨b, l₁⟩ ops).temps ++ l₂ := by
  intro ops
  induction ops with
  | nil => intro n h l₁ l₂ hlen b; rfl
  | cons o ops ih =>
      intro n h l₁ l₂ hlen b
      cases o with
      | pushOp sp =>
          have hrest : ∀ k, k ≤ ops.length →
              popCount (ops.take k) ≤ pushCount (ops.take k) + (n + 1) := by
            intro k hk
            have := h (k + 1) (by simpa using Nat.succ_le_succ hk)
            rw [List.take_succ_cons, popCount_cons_push,
              pushCount_cons_push] at this
            omega
          have := ih (n + 1) hrest (sp :: l₁) l₂ (by simp [hlen]) b
          unfold applyOps at this ⊢
          rw [List.foldl_cons, List.foldl_cons]
          exact this
      | popOp =>
          have h1 := h 1 (by simp)
          rw [List.take_succ_cons, List.take_zero, popCount_cons_pop,
            pushCount_cons_pop] at h1
          have hn : 1 ≤ n := by
            simpa [popCount, pushCount] using h1
          cases n with
          | zero => omega
          | succ m =>
              cases l₁ with
              | nil => simp at hlen
              | cons x l₁ =>
                  have hrest : ∀ k, k ≤ ops.length →
                      popCount (ops.take k) ≤ pushCount (ops.take k) + m := by
                    intro k hk
                    have := h (k + 1) (by simpa using Nat.succ_le_succ hk)
                    rw [List.take_succ_cons, popCount_cons_pop,
                      pushCount_cons_pop] at this
                    omega
                  have := ih m hrest l₁ l₂ (by simpa using hlen) b
                  unfold applyOps at this ⊢
                  rw [List.foldl_cons, List.foldl_cons]
                  exact this

theorem applyOps_temps_length :
    ∀ (ops : List StackOp) (l : List LogSpecification)
      (_ : ∀ k, k ≤ ops.length →
        popCount (ops.take k) ≤ pushCount (ops.take k) + l.length)
      (b : LogSpecification),
      (applyOps ⟨b, l⟩ ops).temps.length + popCount ops =
        l.length + pushCount ops := by
  intro ops
  induction ops with
  | nil => intro l h b; simp [applyOps, pushCount, popCount]
  | cons o ops ih =>
      intro l h b
      cases o with
      | pushOp sp =>
          have hrest : ∀ k, k ≤ ops.length →
              popCount (ops.take k) ≤ pushCount (ops.take k) +
                (sp :: l).length := by
            intro k hk
            have := h (k + 1) (by simpa using Nat.succ_le_succ hk)
            rw [List.take_succ_cons, popCount_cons_push,
              pushCount_cons_push] at this
            simp only [List.length_cons]
            omega
          have := ih (sp :: l) hrest b
          unfold applyOps at this ⊢
          rw [List.foldl_cons]
          rw [pushCount_cons_push, popCount_cons_push]
          simp only [List.length_cons] at this
          have harg : applyOp ⟨b, l⟩ (.pushOp sp) = ⟨b, sp :: l⟩ := rfl
          rw [harg]
          omega
      | popOp =>
          have h1 := h 1 (by simp)
          rw [List.take_succ_cons, List.take_zero, popCount_cons_pop,
            pushCount_cons_pop] at h1
          have hn : 1 ≤ l.length := by
            simpa [popCount, pushCount] using h1
          cases l with
          | nil => simp at hn
          | cons x l =>
              have hrest : ∀ k, k ≤ ops.length →
                  popCount (ops.take k) ≤ pushCount (ops.take k) +
                    l.length := by
                intro k hk
                have := h (k + 1) (by simpa using Nat.succ_le_succ hk)
                rw [List.take_succ_cons, popCount_cons_pop,
                  pushCount_cons_pop] at this
                simp only [List.length_cons] at this
                omega
              have := ih l hrest b
              unfold applyOps at this ⊢
              rw [List.foldl_cons]
              rw [pushCount_cons_pop, popCount_cons_pop]
              have harg : applyOp ⟨b, x :: l⟩ .popOp = ⟨b, l⟩ := rfl
              rw [harg]
              simp only [List.length_cons]
              omega

/-- C4: push_temp followed by pop_temp restores exactly the previous state,
and any balanced sequence of push/pop operations leaves the whole SpecStack
— in particular the effective specification — unchanged, for any nesting
depth. -/
theorem c4_balanced_push_pop (ops : List StackOp) (h : BalancedOps ops) :
    (∀ (st : SpecStack) (sp : LogSpecification),
      (st.push_temp sp).pop_temp = st) ∧
    ∀ st : SpecStack, applyOps st ops = st ∧
      (applyOps st ops).effective = st.effective := by
  constructor
  · intro st sp
    rcases st with ⟨b, ts⟩
    rfl
  · intro st
    rcases st with ⟨b, l⟩
    rcases h with ⟨hbal, hpfx⟩
    have hshape := applyOps_temps_shape ops 0
      (fun k hk => by simpa using hpfx k hk) [] l rfl b
    have hlen := applyOps_temps_length ops []
      (fun k hk => by simpa using hpfx k hk) b
    rw [hbal] at hlen
    simp only [List.length_nil] at hlen
    have hempty : (applyOps ⟨b, []⟩ ops).temps = [] := by
      have : (applyOps ⟨b, []⟩ ops).temps.length = 0 := by omega
      exact List.length_eq_zero.mp this
    rw [hempty] at hshape
    simp only [List.nil_append] at hshape
    have hbase := applyOps_base ops ⟨b, l⟩
    have hfull : applyOps ⟨b, l⟩ ops = ⟨b, l⟩ := by
      rcases heq : applyOps ⟨b, l⟩ ops with ⟨b₂, l₂⟩
      rw [heq] at hshape hbase
      simp only at hshape hbase
      rw [hshape, hbase]
    exact ⟨hfull, by rw [hfull]⟩

/-- Concrete instantiation of c4_balanced_push_pop: a doubly nested
push/push/pop/pop sequence restores the starting stack. -/
theorem c4_balanced_push_pop_witness :
    applyOps ⟨⟨[], []⟩, []⟩
      [.pushOp (parseSpec "info"), .pushOp (parseSpec "trace"),
        .popOp, .popOp] = ⟨⟨[], []⟩, []⟩ :=
  ((c4_balanced_push_pop _ (by constructor <;> decide)).2 _).1

/-- C9: pop_temp on a SpecStack whose temporary-override stack is empty is a
no-op: it returns the state unchanged, so base and effective specification
are untouched. -/
theorem c9_pop_empty_noop (st : SpecStack) (h : st.temps = []) :
    st.pop_temp = st ∧ st.pop_temp.base = st.base ∧
      st.pop_temp.effective = st.effective := by
  rcases st with ⟨b, ts⟩
  simp only at h
  subst h
  exact ⟨rfl, rfl, rfl⟩

/-- Concrete instantiation of c9_pop_empty_noop on an empty stack. -/
theorem c9_pop_empty_noop_witness :
    SpecStack.pop_temp ⟨⟨[], []⟩, []⟩ = ⟨⟨[], []⟩, []⟩ :=
  (c9_pop_empty_noop ⟨⟨[], []⟩, []⟩ rfl).1

/-- Modelled from the spec: the part of RotationState that Criterion::Size
uses — the current file's byte count, the sizes of the rotated-out files in
rotation order, and the monotonically increasing rotation index. -/
structure SizeState where
  currentBytes : Nat
  rotatedSizes : List Nat
  rotations : Nat
deriving DecidableEq, Repr

/-- Fresh rotation state: empty current file, nothing rotated yet. -/
def initialSizeState : SizeState := ⟨0, [], 0⟩

/-- Modelled from the spec: on each write, first evaluate the Size criterion —
trigger when current byte count + incoming record size would exceed the
configured limit; on trigger close and rename the current file (recording its
size), open a fresh one, reset the byte count, increment the rotation index,
then append the whole record to the now-current file (records are never
split across files). -/
def writeSized (L : Nat) (st : SizeState) (s : Nat) : SizeState :=
  if L < st.currentBytes + s then
    ⟨s, st.rotatedSizes ++ [st.currentBytes], st.rotations + 1⟩
  else
    ⟨st.currentBytes + s, st.rotatedSizes, st.rotations⟩

/-- A sequence of record writes against the size-rotated file. -/
def writeAllSized (L : Nat) (st : SizeState) (ss : List Nat) : SizeState :=
  ss.foldl (writeSized L) st

theorem sum_take_succ_get (l : List Nat) (n : Nat) (h : n < l.length) :
    (l.take (n+1)).sum = (l.take n).sum + l.get ⟨n, h⟩ := by
  rw [List.take_succ, List.getElem?_eq_getElem h, List.sum_append]
  rfl

theorem sum_take_le_sum (l : List Nat) (m : Nat) :
    (l.take m).sum ≤ l.sum := by
  conv_rhs => rw [← List.take_append_drop m l]
  rw [List.sum_append]
  exact Nat.le_add_right _ _

theorem writeAllSized_append (L : Nat) (st : SizeState) (l₁ l₂ : List Nat) :
    writeAllSized L st (l₁ ++ l₂) =
      writeAllSized L (writeAllSized L st l₁) l₂ := by
  unfold writeAllSized
  rw [List.foldl_append]

theorem writeAllSized_conservation (L : Nat) :
    ∀ (ss : List Nat) (st : SizeState),
      (writeAllSized L st ss).rotatedSizes.sum +
        (writeAllSized L st ss).currentBytes =
      st.rotatedSizes.sum + st.currentBytes + ss.sum := by
  intro ss
  induction ss with
  | nil => intro st; simp [writeAllSized]
  | cons s ss ih =>
      intro st
      have hcons : writeAllSized L st (s :: ss) =
          writeAllSized L (writeSized L st s) ss := rfl
      rw [hcons, ih (writeSized L st s), List.sum_cons]
      unfold writeSized
      by_cases h : L < st.currentBytes + s
      · rw [if_pos h]
        simp only [List.sum_append, List.sum_cons, List.sum_nil]
        omega
      · rw [if_neg h]
        simp only
        omega

theorem writeAllSized_no_rotation (L : Nat) :
    ∀ (ss : List Nat) (st : SizeState),
      (∀ j, j < ss.length →
        st.currentBytes + (ss.take (j+1)).sum ≤ L) →
      writeAllSized L st ss =
        ⟨st.currentBytes + ss.sum, st.rotatedSizes, st.rotations⟩ := by
  intro ss
  induction ss with
  | nil =>
      intro st h
      rcases st with ⟨cb, rs, r⟩
      simp [writeAllSized]
  | cons s ss ih =>
      intro st h
      have h0 : st.currentBytes + s ≤ L := by
        have := h 0 (by simp)
        simpa using this
      have hw : writeSized L st s =
          ⟨st.currentBytes + s, st.rotatedSizes, st.rotations⟩ := by
        unfold writeSized
        rw [if_neg (Nat.not_lt.mpr h0)]
      have hrest : ∀ j, j < ss.length →
          (st.currentBytes + s) + (ss.take (j+1)).sum ≤ L := by
        intro j hj
        have := h (j+1) (by simpa using Nat.succ_lt_succ hj)
        rw [List.take_succ_cons, List.sum_cons] at this
        omega
      have hcons : writeAllSized L st (s :: ss) =
          writeAllSized L (writeSized L st s) ss := rfl
      rw [hcons, hw,
        ih ⟨st.currentBytes + s, st.rotatedSizes, st.rotations⟩ hrest,
        List.sum_cons, Nat.add_assoc]

/-- C3: with Criterion::Size and limit L, a write sequence whose cumulative
byte count first crosses L at the k-th write and whose remaining records
then fit within L again produces exactly one rotation, triggered at the
crossing write; the rotated-out file holds exactly the bytes written before
the crossing write (at most L, so certainly at most L plus one record of
overflow); and no record is ever split across two files: for every write
sequence the bytes on disk (rotated files plus current file) account for
every record in full. -/
theorem c3_size_rotation (L : Nat) (ss : List Nat) (k : Nat)
    (hk : k < ss.length)
    (hcross : L < (ss.take (k+1)).sum)
    (hfirst : ∀ j, j < k → (ss.take (j+1)).sum ≤ L)
    (hrest : (ss.drop k).sum ≤ L) :
    (∀ (st : SizeState) (l : List Nat),
      (writeAllSized L st l).rotatedSizes.sum +
        (writeAllSized L st l).currentBytes =
      st.rotatedSizes.sum + st.currentBytes + l.sum) ∧
    (writeAllSized L initialSizeState ss).rotations = 1 ∧
    (writeAllSized L initialSizeState ss).rotatedSizes =
      [(ss.take k).sum] ∧
    (ss.take k).sum ≤ L ∧
    (writeAllSized L initialSizeState ss).rotatedSizes.sum +
      (writeAllSized L initialSizeState ss).currentBytes = ss.sum := by
  have hdropk : ss.drop k = ss.get ⟨k, hk⟩ :: ss.drop (k+1) :=
    List.drop_eq_getElem_cons hk
  have hsum_drop : (ss.drop k).sum =
      ss.get ⟨k, hk⟩ + (ss.drop (k+1)).sum := by
    rw [hdropk, List.sum_cons]
  have htakelen : (ss.take k).length = k := by
    rw [List.length_take]
    exact Nat.min_eq_left (Nat.le_of_lt hk)
  have hA : writeAllSized L initialSizeState (ss.take k) =
      ⟨(ss.take k).sum, [], 0⟩ := by
    have hcond : ∀ j, j < (ss.take k).length →
        initialSizeState.currentBytes + ((ss.take k).take (j+1)).sum ≤ L := by
      intro j hj
      rw [htakelen] at hj
      rw [List.take_take, Nat.min_eq_left (Nat.succ_le_of_lt hj)]
      have := hfirst j hj
      simp only [initialSizeState, Nat.succ_eq_add_one]
      omega
    have := writeAllSized_no_rotation L (ss.take k) initialSizeState hcond
    simpa [initialSizeState] using this
  have hsplit : writeAllSized L initialSizeState ss =
      writeAllSized L ⟨(ss.take k).sum, [], 0⟩ (ss.drop k) := by
    conv_lhs => rw [← List.take_append_drop k ss]
    rw [writeAllSized_append, hA]
  have hts := sum_take_succ_get ss k hk
  have hB : writeSized L ⟨(ss.take k).sum, [], 0⟩ (ss.get ⟨k, hk⟩) =
      ⟨ss.get ⟨k, hk⟩, [(ss.take k).sum], 1⟩ := by
    have htrig : L < (ss.take k).sum + ss.get ⟨k, hk⟩ := by omega
    unfold writeSized
    rw [if_pos htrig]
    rfl
  have hC : writeAllSized L ⟨ss.get ⟨k, hk⟩, [(ss.take k).sum], 1⟩
      (ss.drop (k+1)) =
      ⟨ss.get ⟨k, hk⟩ + (ss.drop (k+1)).sum, [(ss.take k).sum], 1⟩ := by
    have hcond : ∀ j, j < (ss.drop (k+1)).length →
        (SizeState.mk (ss.get ⟨k, hk⟩) [(ss.take k).sum] 1).currentBytes +
          ((ss.drop (k+1)).take (j+1)).sum ≤ L := by
      intro j hj
      have hle := sum_take_le_sum (ss.drop (k+1)) (j+1)
      simp only
      omega
    exact writeAllSized_no_rotation L (ss.drop (k+1)) _ hcond
  have hcons : writeAllSized L ⟨(ss.take k).sum, [], 0⟩
      (ss.get ⟨k, hk⟩ :: ss.drop (k+1)) =
      writeAllSized L (writeSized L ⟨(ss.take k).sum, [], 0⟩
        (ss.get ⟨k, hk⟩)) (ss.drop (k+1)) := rfl
  have hfinal : writeAllSized L initialSizeState ss =
      ⟨ss.get ⟨k, hk⟩ + (ss.drop (k+1)).sum, [(ss.take k).sum], 1⟩ := by
    rw [hsplit, hdropk, hcons, hB, hC]
  have hssum : ss.sum = (ss.take k).sum + (ss.drop k).sum := by
    conv_lhs => rw [← List.take_append_drop k ss]
    rw [List.sum_append]
  refine ⟨fun st l => writeAllSized_conservation L l st, ?_, ?_, ?_, ?_⟩
  · rw [hfinal]
  · rw [hfinal]
  · cases k with
    | zero => simp
    | succ m => exact hfirst m (Nat.lt_succ_self m)
  · rw [hfinal]
    simp only [List.sum_cons, List.sum_nil]
    omega

/-- Concrete instantiation of c3_size_rotation: limit 10, records of sizes
4, 4, 4, 2; the third write crosses the limit, producing exactly one
rotation, a rotated file of 8 bytes, and no lost bytes. -/
theorem c3_size_rotation_witness :
    (writeAllSized 10 initialSizeState [4, 4, 4, 2]).rotations = 1 ∧
    (writeAllSized 10 initialSizeState [4, 4, 4, 2]).rotatedSizes = [8] ∧
    (writeAllSized 10 initialSizeState [4, 4, 4, 2]).rotatedSizes.sum +
      (writeAllSized 10 initialSizeState [4, 4, 4, 2]).currentBytes = 14 := by
  have h := c3_size_rotation 10 [4, 4, 4, 2] 2 (by decide) (by decide)
    (by decide) (by decide)
  exact ⟨h.2.1, by simpa using h.2.2.1, by simpa using h.2.2.2.2⟩

/-- Modelled from the spec: the file bookkeeping the Cleanup Engine operates
on — the canonical current-file path (fixed rCURRENT infix) plus the rotated
(non-current) file names on disk, newest first. -/
structure FileState where
  current : String
  rotated : List String
deriving DecidableEq, Repr

/-- Modelled from the spec: a rotation renames the current file to a fresh
rotated name (which becomes the newest rotated file) and reopens a fresh
file at the canonical current path. -/
def rotateOnce (st : FileState) (name : String) : FileState :=
  ⟨st.current, name :: st.rotated⟩

/-- Modelled from the spec: the cleanup pass for KeepLogFiles(n) enumerates
the rotated files — the active current-file path is excluded from candidate
enumeration — keeps the newest n and deletes all excess. -/
def cleanupKeep (n : Nat) (st : FileState) : FileState :=
  ⟨st.current, st.rotated.take n⟩

/-- A rotation immediately followed by its cleanup pass. -/
def rotateThenCleanup (n : Nat) (st : FileState) (name : String) :
    FileState :=
  cleanupKeep n (rotateOnce st name)

/-- A sequence of rotations, each followed by cleanup. -/
def runRotations (n : Nat) (st : FileState) (names : List String) :
    FileState :=
  names.foldl (rotateThenCleanup n) st

theorem take_cons_take {α : Type} (x : α) (l : List α) (n : Nat) :
    (x :: l.take n).take n = (x :: l).take n := by
  cases n with
  | zero => rfl
  | succ m =>
      rw [List.take_succ_cons, List.take_succ_cons, List.take_take,
        Nat.min_eq_left (Nat.le_succ m)]

theorem runRotations_shape (n : Nat) (cur : String) :
    ∀ (names : List String) (l : List String),
      runRotations n ⟨cur, l.take n⟩ names =
        ⟨cur, (names.reverse ++ l).take n⟩ := by
  intro names
  induction names with
  | nil => intro l; rfl
  | cons name names ih =>
      intro l
      have hstep : rotateThenCleanup n ⟨cur, l.take n⟩ name =
          ⟨cur, (name :: l).take n⟩ := by
        unfold rotateThenCleanup rotateOnce cleanupKeep
        simp only
        rw [take_cons_take]
      have hcons : runRotations n ⟨cur, l.take n⟩ (name :: names) =
          runRotations n (rotateThenCleanup n ⟨cur, l.take n⟩ name) names :=
        rfl
      rw [hcons, hstep, ih (name :: l)]
      simp

/-- C5: with retention policy KeepLogFiles(n), after every sequence of
rotations each followed by its cleanup pass, the rotated (non-current) files
on disk are exactly the newest n rotated names — min(n, rotations produced)
many — all excess rotated files are deleted, and the current file is never a
deletion candidate (it is preserved at its canonical path). -/
theorem c5_keep_log_files :
    ∀ (n : Nat) (cur : String) (names : List String),
      (runRotations n ⟨cur, []⟩ names).rotated.length =
        min n names.length ∧
      (runRotations n ⟨cur, []⟩ names).rotated = names.reverse.take n ∧
      (runRotations n ⟨cur, []⟩ names).current = cur := by
  intro n cur names
  have h := runRotations_shape n cur names []
  simp only [List.take_nil, List.append_nil] at h
  rw [h]
  refine ⟨?_, rfl, rfl⟩
  simp [List.length_take]

/-- Modelled from the spec: timestamps in seconds; the calendar day of a
timestamp. -/
def dayOf (t : Nat) : Nat := t / 86400

/-- Modelled from the spec: the part of RotationState that
Criterion::Age(Day) uses — the current file's creation timestamp and the
rotation count. -/
structure AgeState where
  creation : Nat
  rotations : Nat
deriving DecidableEq, Repr

/-- Modelled from the spec: the Age criterion at Day granularity — on each
write compare the calendar day of the current file's creation timestamp
against now and trigger on day change, which closes and renames the current
file and opens a fresh one created now. -/
def writeAged (st : AgeState) (now : Nat) : AgeState :=
  if dayOf now = dayOf st.creation then st else ⟨now, st.rotations + 1⟩

/-- A sequence of writes against the age-rotated file. -/
def writeAllAged (st : AgeState) (ts : List Nat) : AgeState :=
  ts.foldl writeAged st

theorem writeAllAged_same_day :
    ∀ (ts : List Nat) (st : AgeState),
      (∀ x ∈ ts, dayOf x = dayOf st.creation) →
      writeAllAged st ts = st := by
  intro ts
  induction ts with
  | nil => intro st h; rfl
  | cons t ts ih =>
      intro st h
      have ht : dayOf t = dayOf st.creation :=
        h t (List.mem_cons_self t ts)
      have hw : writeAged st t = st := by
        unfold writeAged
        rw [if_pos ht]
      have hcons : writeAllAged st (t :: ts) =
          writeAllAged (writeAged st t) ts := rfl
      rw [hcons, hw]
      exact ih st (fun x hx => h x (List.mem_cons_of_mem t hx))

/-- C6: with Criterion::Age at Day granularity, no rotation occurs for any
write whose timestamp falls in the same calendar day as the current file's
creation timestamp, and exactly one rotation occurs on the first write after
the day boundary (further writes in the new day do not rotate again). -/
theorem c6_age_day_rotation (c : Nat) (ts₁ ts₂ : List Nat) (t : Nat)
    (h1 : ∀ x ∈ ts₁, dayOf x = dayOf c)
    (h2 : dayOf t ≠ dayOf c)
    (h3 : ∀ x ∈ ts₂, dayOf x = dayOf t) :
    writeAllAged ⟨c, 0⟩ ts₁ = ⟨c, 0⟩ ∧
    writeAllAged ⟨c, 0⟩ (ts₁ ++ t :: ts₂) = ⟨t, 1⟩ := by
  have hsame : writeAllAged ⟨c, 0⟩ ts₁ = ⟨c, 0⟩ :=
    writeAllAged_same_day ts₁ ⟨c, 0⟩ h1
  refine ⟨hsame, ?_⟩
  have happ : writeAllAged ⟨c, 0⟩ (ts₁ ++ t :: ts₂) =
      writeAllAged (writeAllAged ⟨c, 0⟩ ts₁) (t :: ts₂) := by
    unfold writeAllAged
    rw [List.foldl_append]
  rw [happ, hsame]
  have hw : writeAged ⟨c, 0⟩ t = ⟨t, 1⟩ := by
    unfold writeAged
    rw [if_neg h2]
  have hcons : writeAllAged ⟨c, 0⟩ (t :: ts₂) =
      writeAllAged (writeAged ⟨c, 0⟩ t) ts₂ := rfl
  rw [hcons, hw]
  exact writeAllAged_same_day ts₂ ⟨t, 1⟩ h3

/-- Concrete instantiation of c6_age_day_rotation: creation during day 0,
two same-day writes, then two writes in day 1: exactly one rotation, at the
first write of day 1. -/
theorem c6_age_day_rotation_witness :
    writeAllAged ⟨100, 0⟩ [200, 86000, 86500, 86600] = ⟨86500, 1⟩ :=
  (c6_age_day_rotation 100 [200, 86000] [86600] 86500
    (by decide) (by decide) (by decide)).2

/-- Modelled from the spec: one buffered Destination — its in-memory buffer,
the records already in the underlying sink, and whether the destination is
still open. -/
structure BufState where
  buffer : List String
  sink : List String
  isOpen : Bool
deriving DecidableEq, Repr

/-- Modelled from the spec: with buffering enabled a record accepted while
the destination is open is appended to the buffer; after shutdown log calls
are no-ops. -/
def writeBuf (st : BufState) (r : String) : BufState :=
  if st.isOpen then ⟨st.buffer ++ [r], st.sink, true⟩ else st

/-- Modelled from the spec: flush forces all buffered bytes to the
underlying sink. -/
def flushBuf (st : BufState) : BufState :=
  ⟨[], st.sink ++ st.buffer, st.isOpen⟩

/-- Modelled from the spec: shutdown performs a final synchronous flush and
closes the destination before returning. -/
def shutdownBuf (st : BufState) : BufState :=
  ⟨[], st.sink ++ st.buffer, false⟩

/-- A sequence of record writes to the buffered destination. -/
def writeAllBuf (st : BufState) (rs : List String) : BufState :=
  rs.foldl writeBuf st

theorem writeAllBuf_open (s : List String) :
    ∀ (rs : List String) (b : List String),
      writeAllBuf ⟨b, s, true⟩ rs = ⟨b ++ rs, s, true⟩ := by
  intro rs
  induction rs with
  | nil => intro b; simp [writeAllBuf]
  | cons r rs ih =>
      intro b
      have hcons : writeAllBuf ⟨b, s, true⟩ (r :: rs) =
          writeAllBuf (writeBuf ⟨b, s, true⟩ r) rs := rfl
      have hw : writeBuf ⟨b, s, true⟩ r = ⟨b ++ [r], s, true⟩ := rfl
      rw [hcons, hw, ih (b ++ [r])]
      simp

theorem writeAllBuf_closed (b s : List String) :
    ∀ (rs : List String), writeAllBuf ⟨b, s, false⟩ rs = ⟨b, s, false⟩ := by
  intro rs
  induction rs with
  | nil => rfl
  | cons r rs ih =>
      have hcons : writeAllBuf ⟨b, s, false⟩ (r :: rs) =
          writeAllBuf (writeBuf ⟨b, s, false⟩ r) rs := rfl
      have hw : writeBuf ⟨b, s, false⟩ r = ⟨b, s, false⟩ := rfl
      rw [hcons, hw]
      exact ih

/-- C7: with buffering enabled and no flush timer, every record accepted
before shutdown() is present in the underlying sink after shutdown()
returns (shutdown performs a final synchronous flush and closes the
destination), and no record is written to the sink after shutdown()
returns — subsequent writes are no-ops. -/
theorem c7_shutdown_drains :
    ∀ (s₀ rs rs₂ : List String),
      (shutdownBuf (writeAllBuf ⟨[], s₀, true⟩ rs)).sink = s₀ ++ rs ∧
      (shutdownBuf (writeAllBuf ⟨[], s₀, true⟩ rs)).isOpen = false ∧
      writeAllBuf (shutdownBuf (writeAllBuf ⟨[], s₀, true⟩ rs)) rs₂ =
        shutdownBuf (writeAllBuf ⟨[], s₀, true⟩ rs) := by
  intro s₀ rs rs₂
  rw [writeAllBuf_open s₀ rs []]
  exact ⟨rfl, rfl, writeAllBuf_closed [] (s₀ ++ ([] ++ rs)) rs₂⟩

/-- Modelled from the spec: the configurable parse-failure policy of the
Spec-File Watcher — silent, log the error, or count it. -/
inductive OnErrorPolicy where
  | silent
  | logError
  | countError
deriving DecidableEq, Repr

/-- Outcome of one watcher re-parse step: the resulting SpecStack plus what
the on-error policy surfaced (log lines, counter increments). -/
structure WatchOutcome where
  stack : SpecStack
  loggedErrors : List String
  errorCount : Nat
deriving DecidableEq, Repr

/-- Modelled from the spec: on a detected modification the Spec-File Watcher
re-parses the file contents; a parse failure keeps the previous effective
specification (the stack is unchanged) and is surfaced only through the
configured on-error policy — the step is a total function, it never panics
the watcher task; a successful parse replaces only the base specification
via an atomic swap, leaving the temporary override stack untouched. -/
def watcherStep (policy : OnErrorPolicy) (st : SpecStack) (txt : String) :
    WatchOutcome :=
  match parseResult txt with
  | .error es =>
      match policy with
      | .silent => ⟨st, [], 0⟩
      | .logError => ⟨st, es, 0⟩
      | .countError => ⟨st, [], 1⟩
  | .ok sp => ⟨⟨sp, st.temps⟩, [], 0⟩

/-- C8: when the watcher's re-parse of a changed spec file fails, the
previously effective specification remains active — the whole SpecStack is
unchanged — and the failure is surfaced only through the configured on-error
policy; on a successful parse the watcher replaces only the base
specification, leaving every temporary override layer untouched. -/
theorem c8_watcher_reparse (policy : OnErrorPolicy) (st : SpecStack)
    (txt : String) :
    (∀ es, parseResult txt = .error es →
      (watcherStep policy st txt).stack = st ∧
      (watcherStep policy st txt).stack.effective = st.effective ∧
      (watcherStep policy st txt).loggedErrors =
        (match policy with
          | .silent => [] | .logError => es | .countError => []) ∧
      (watcherStep policy st txt).errorCount =
        (match policy with
          | .silent => 0 | .logError => 0 | .countError => 1)) ∧
    (∀ sp, parseResult txt = .ok sp →
      (watcherStep policy st txt).stack.base = sp ∧
      (watcherStep policy st txt).stack.temps = st.temps) := by
  constructor
  · intro es hes
    unfold watcherStep
    rw [hes]
    cases policy <;> exact ⟨rfl, rfl, rfl, rfl⟩
  · intro sp hsp
    unfold watcherStep
    rw [hsp]
    exact ⟨rfl, rfl⟩

/-- Concrete instantiation of c8_watcher_reparse: a malformed spec file
leaves the stack (base and temporary layer) unchanged under the logging
policy, and a valid file swaps only the base under the same stack. -/
theorem c8_watcher_reparse_witness :
    (watcherStep .logError ⟨parseSpec "info", [parseSpec "trace"]⟩
        "nonsense").stack = ⟨parseSpec "info", [parseSpec "trace"]⟩ ∧
    (watcherStep .logError ⟨parseSpec "info", [parseSpec "trace"]⟩
        "warn").stack.base = parseSpec "warn" ∧
    (watcherStep .logError ⟨parseSpec "info", [parseSpec "trace"]⟩
        "warn").stack.temps = [parseSpec "trace"] :=
  ⟨((c8_watcher_reparse .logError ⟨parseSpec "info", [parseSpec "trace"]⟩
      "nonsense").1 ["nonsense"] rfl).1,
   ((c8_watcher_reparse .logError ⟨parseSpec "info", [parseSpec "trace"]⟩
      "warn").2 (parseSpec "warn") rfl).1,
   ((c8_watcher_reparse .logError ⟨parseSpec "info", [parseSpec "trace"]⟩
      "warn").2 (parseSpec "warn") rfl).2⟩

/-- Modelled from the spec: the off specification used when RUST_LOG is
absent or unusable — a root directive with threshold Off, under which
nothing is logged at all. -/
def offSpec : LogSpecification := ⟨[⟨[], .Off⟩], []⟩

/-- Modelled from the spec: Logger::with_env reads the RUST_LOG environment
variable; if it is not set, or its value cannot be interpreted as a spec,
the logger uses the off specification — nothing is logged — instead of
failing or of the Error-only default. -/
def withEnvSpec (env : Option String) : LogSpecification :=
  match env with
  | none => offSpec
  | some s =>
      match parseResult s with
      | .ok sp => sp
      | .error _ => offSpec

/-- Modelled from the spec: start() of a with_env logger; it does not fail
on a missing or uninterpretable RUST_LOG. -/
def startWithEnv (env : Option String) :
    Except String LogSpecification :=
  .ok (withEnvSpec env)

/-- C10: when RUST_LOG is unset, or set to a value that cannot be
interpreted as a spec, start() succeeds and the resulting logger enables no
records at all — every record, even at Error severity, is filtered out —
rather than failing or falling back to the Error-only default. -/
theorem c10_with_env_off (env : Option String)
    (h : env = none ∨
      ∃ s es, env = some s ∧ parseResult s = .error es) :
    startWithEnv env = .ok (withEnvSpec env) ∧
    ∀ (lv : Level) (path : List String),
      is_enabled (withEnvSpec env) lv path = false := by
  have hoff : withEnvSpec env = offSpec := by
    rcases h with hnone | ⟨s, es, hsome, herr⟩
    · rw [hnone]
      rfl
    · rw [hsome]
      have hred : withEnvSpec (some s) =
          (match parseResult s with
            | .ok sp => sp
            | .error _ => offSpec) := rfl
      rw [hred, herr]
  refine ⟨rfl, ?_⟩
  intro lv path
  rw [hoff]
  have hmatch : dirMatches path ⟨[], .Off⟩ = true := by
    unfold dirMatches
    cases path <;> rfl
  have hsel : selectDirective offSpec path = some ⟨[], .Off⟩ := by
    simp [selectDirective, selectFrom, offSpec, selStep, hmatch]
  have heff : effectiveFilter offSpec path = .Off := by
    unfold effectiveFilter
    rw [hsel]
  unfold is_enabled
  rw [heff]
  cases lv <;> rfl

/-- Concrete instantiation of c10_with_env_off: an uninterpretable RUST_LOG
value filters out even Error records, and an unset RUST_LOG does the same. -/
theorem c10_with_env_off_witness :
    is_enabled (withEnvSpec (some "qqq")) Level.Error ["m"] = false ∧
    is_enabled (withEnvSpec none) Level.Error ["m"] = false :=
  ⟨(c10_with_env_off (some "qqq")
      (Or.inr ⟨"qqq", ["qqq"], rfl, rfl⟩)).2 .Error ["m"],
   (c10_with_env_off none (Or.inl rfl)).2 .Error ["m"]⟩

end FlexiLogger
